import Mathlib

/-!
Verification of the CarrotHLM numeric core (vectors, quaternions, 3x3/4x4
matrices, quaternion/matrix conversions, affine inverse, and the general
Gauss-Jordan 4x4 inverse).

The C++ source computes over IEEE-754 single-precision floats.  This
development embeds the algorithms over an arbitrary `LinearOrderedField K`
(instantiated at `ℚ` for concrete executable witnesses and at `ℝ` where the
source calls transcendental functions): decimal literals of the source such
as `1e-6f`, `.9995f` or `.25f` are modelled by the exact rationals they
denote, and calls to `std:: sqrt` / `std:: sin` / `std:: cos` / `std:: acos`
are modelled by explicit function parameters (`sqrtf`, `sinf`, ...), so that
every definition stays computable and theorems can instantiate them with
`Real.sqrt`, `Real.sin`, ... .  Exact field arithmetic has no NaN/inf values;
the source's "never NaN by design" contracts appear here as the totality of
the embedded functions together with their exact degenerate-case results.
-/

namespace chlm

variable {K : Type} [LinearOrderedField K]

/-- Core.h: `constexpr float epsilon{ 1e-6f };` -/
def epsilon : K := 1 / 1000000

/-- Core.h: `almost_equal(a, b, eps = epsilon)` is `std::abs(a - b) <= eps`;
all uses in the embedded code rely on the defaulted `eps = epsilon`. -/
def almost_equal (a b : K) : Prop := |a - b| ≤ epsilon

instance (a b : K) : Decidable (almost_equal a b) :=
  inferInstanceAs (Decidable (|a - b| ≤ epsilon))

/-- Core.h: `clamp(v, lo, hi)` is `v < lo ? lo : (v > hi ? hi : v)`. -/
def clamp (v lo hi : K) : K := if v < lo then lo else if v > hi then hi else v

/-- Core.h `float2` (two-component float vector). -/
@[ext]
structure float2 (K : Type) where
  x : K
  y : K
deriving DecidableEq

/-- Core.h `float3` (three-component float vector). -/
@[ext]
structure float3 (K : Type) where
  x : K
  y : K
  z : K
deriving DecidableEq

/-- Core.h `float4` (four-component float vector). -/
@[ext]
structure float4 (K : Type) where
  x : K
  y : K
  z : K
  w : K
deriving DecidableEq

instance : Add (float2 K) := ⟨fun a b => ⟨a.x + b.x, a.y + b.y⟩⟩

instance : Sub (float2 K) := ⟨fun a b => ⟨a.x - b.x, a.y - b.y⟩⟩

instance : Mul (float2 K) := ⟨fun a b => ⟨a.x * b.x, a.y * b.y⟩⟩

instance : HMul (float2 K) K (float2 K) := ⟨fun v s => ⟨v.x * s, v.y * s⟩⟩

instance : Add (float3 K) := ⟨fun a b => ⟨a.x + b.x, a.y + b.y, a.z + b.z⟩⟩

instance : Sub (float3 K) := ⟨fun a b => ⟨a.x - b.x, a.y - b.y, a.z - b.z⟩⟩

instance : Neg (float3 K) := ⟨fun a => ⟨-a.x, -a.y, -a.z⟩⟩

instance : Mul (float3 K) := ⟨fun a b => ⟨a.x * b.x, a.y * b.y, a.z * b.z⟩⟩

instance : HMul (float3 K) K (float3 K) := ⟨fun v s => ⟨v.x * s, v.y * s, v.z * s⟩⟩

instance : HMul K (float3 K) (float3 K) := ⟨fun s v => ⟨s * v.x, s * v.y, s * v.z⟩⟩

instance : Add (float4 K) := ⟨fun a b => ⟨a.x + b.x, a.y + b.y, a.z + b.z, a.w + b.w⟩⟩

instance : Sub (float4 K) := ⟨fun a b => ⟨a.x - b.x, a.y - b.y, a.z - b.z, a.w - b.w⟩⟩

instance : Neg (float4 K) := ⟨fun a => ⟨-a.x, -a.y, -a.z, -a.w⟩⟩

instance : Mul (float4 K) := ⟨fun a b => ⟨a.x * b.x, a.y * b.y, a.z * b.z, a.w * b.w⟩⟩

instance : HMul (float4 K) K (float4 K) := ⟨fun v s => ⟨v.x * s, v.y * s, v.z * s, v.w * s⟩⟩

instance : HMul K (float4 K) (float4 K) := ⟨fun s v => ⟨s * v.x, s * v.y, s * v.z, s * v.w⟩⟩

/-- Swizzle projection `.xyz` of a `float4` (explicit named accessor for the
source's ext-vector swizzle). -/
def float4.xyz (v : float4 K) : float3 K := ⟨v.x, v.y, v.z⟩

/-- Vector.h: `dot(a, b)` for `float2`, computed as `(a*b).x + (a*b).y`. -/
def dot2 (a b : float2 K) : K := (a * b).x + (a * b).y

/-- Vector.h: `dot(a, b)` for `float3`. -/
def dot3 (a b : float3 K) : K := (a * b).x + (a * b).y + (a * b).z

/-- Vector.h: `dot(a, b)` for `float4`. -/
def dot4 (a b : float4 K) : K := (a * b).x + (a * b).y + (a * b).z + (a * b).w

/-- Vector.h: `length_squared(v) = dot(v, v)` for `float2`. -/
def length_squared2 (v : float2 K) : K := dot2 v v

/-- Vector.h: `length_squared(v) = dot(v, v)` for `float3`. -/
def length_squared3 (v : float3 K) : K := dot3 v v

/-- Vector.h: `length_squared(v) = dot(v, v)` for `float4`. -/
def length_squared4 (v : float4 K) : K := dot4 v v

/-- Vector.h: `length(v) = std::sqrt(length_squared(v))` for `float2`;
`sqrtf` models `std::sqrt`. -/
def length2 (sqrtf : K → K) (v : float2 K) : K := sqrtf (length_squared2 v)

/-- Vector.h: `length(v) = std::sqrt(length_squared(v))` for `float3`. -/
def length3 (sqrtf : K → K) (v : float3 K) : K := sqrtf (length_squared3 v)

/-- Vector.h: `length(v) = std::sqrt(length_squared(v))` for `float4`. -/
def length4 (sqrtf : K → K) (v : float4 K) : K := sqrtf (length_squared4 v)

/-- Vector.h: `normalize(v)` for `float2`:
`almost_equal(len, 0) ? float2{0,0} : v * (1/len)`. -/
def normalize2 (sqrtf : K → K) (v : float2 K) : float2 K :=
  let len := length2 sqrtf v
  if almost_equal len 0 then ⟨0, 0⟩ else v * (1 / len)

/-- Vector.h: `normalize(v)` for `float3`. -/
def normalize3 (sqrtf : K → K) (v : float3 K) : float3 K :=
  let len := length3 sqrtf v
  if almost_equal len 0 then ⟨0, 0, 0⟩ else v * (1 / len)

/-- Vector.h: `normalize(v)` for `float4`. -/
def normalize4 (sqrtf : K → K) (v : float4 K) : float4 K :=
  let len := length4 sqrtf v
  if almost_equal len 0 then ⟨0, 0, 0, 0⟩ else v * (1 / len)

/-- Vector.h: `lerp(a, b, t) = a + (b - a) * t` for `float4`. -/
def lerp4 (a b : float4 K) (t : K) : float4 K := a + (b - a) * t

/-- Quaternion.h: `using quat = float4` with vector part `xyz`, scalar part `w`. -/
abbrev quat (K : Type) := float4 K

/-- Quaternion.h: `quat_identity() = quat{0, 0, 0, 1}`. -/
def quat_identity : quat K := ⟨0, 0, 0, 1⟩

/-- Quaternion.h: Hamilton product `mul(a, b)` on quaternions. -/
def quat_mul (a b : quat K) : quat K :=
  ⟨a.w * b.x + a.x * b.w + a.y * b.z - a.z * b.y,
   a.w * b.y - a.x * b.z + a.y * b.w + a.z * b.x,
   a.w * b.z + a.x * b.y - a.y * b.x + a.z * b.w,
   a.w * b.w - a.x * b.x - a.y * b.y - a.z * b.z⟩

/-- Quaternion.h: `conjugate(q) = quat{-q.x, -q.y, -q.z, q.w}`. -/
def conjugate (q : quat K) : quat K := ⟨-q.x, -q.y, -q.z, q.w⟩

/-- Quaternion.h: `nlerp(a, b, t) = normalize(a + (b - a) * t)`. -/
def nlerp (sqrtf : K → K) (a b : quat K) (t : K) : quat K :=
  normalize4 sqrtf (lerp4 a b t)

/-- Quaternion.h: `slerp(a, b, t)`.  The source mutates `d` and a local copy
`b_adj` of `b` when `dot(a, b) < 0`; this is modelled by the two `if d < 0`
selections below.  `sinf` and `acosf` model `std::sin` and `std::acos`. -/
def slerp (sqrtf sinf acosf : K → K) (a b : quat K) (t : K) : quat K :=
  let d := dot4 a b
  let b_adj := if d < 0 then -b else b
  let d' := if d < 0 then -d else d
  if d' > 9995 / 10000 then nlerp sqrtf a b_adj t
  else
    let theta := acosf (clamp d' (-1) 1)
    let sine := sinf theta
    let wa := sinf ((1 - t) * theta) / sine
    let wb := sinf (t * theta) / sine
    a * wa + b_adj * wb

/-- Quaternion.h: `rotate_vector(q, v)`:  embed `v` as the pure quaternion
`vq = {v.x, v.y, v.z, 0}`, compute `mul(mul(q, vq), conjugate(q))`
(conjugate used as inverse, assuming `q` normalized), return the `xyz` part. -/
def rotate_vector (q : quat K) (v : float3 K) : float3 K :=
  let vq : quat K := ⟨v.x, v.y, v.z, 0⟩
  let q_inv := conjugate q
  (quat_mul (quat_mul q vq) q_inv).xyz

/-- Matrix3x3.h: `float3x3`, column-major, three `float3` columns.
`c0`, `c1`, `c2` are `columns[0]`, `columns[1]`, `columns[2]`. -/
@[ext]
structure float3x3 (K : Type) where
  c0 : float3 K
  c1 : float3 K
  c2 : float3 K
deriving DecidableEq

/-- Matrix3x3.h: the bounds-asserted column accessor `operator[]`. -/
def float3x3.col (m : float3x3 K) : Fin 3 → float3 K
  | 0 => m.c0
  | 1 => m.c1
  | 2 => m.c2

/-- Matrix3x3.h: `float3x3::identity()` (the default value). -/
def float3x3.identity : float3x3 K := ⟨⟨1, 0, 0⟩, ⟨0, 1, 0⟩, ⟨0, 0, 1⟩⟩

/-- Matrix3x3.h: `mul(m, v) = v.x * columns[0] + v.y * columns[1] + v.z * columns[2]`. -/
def float3x3.mulv (m : float3x3 K) (v : float3 K) : float3 K :=
  v.x * m.c0 + v.y * m.c1 + v.z * m.c2

/-- Matrix3x3.h: `mul(a, b)` applies `a` to each column of `b`. -/
def float3x3.mul (a b : float3x3 K) : float3x3 K :=
  ⟨a.mulv b.c0, a.mulv b.c1, a.mulv b.c2⟩

/-- Matrix3x3.h: `transpose(m)`. -/
def float3x3.transpose (m : float3x3 K) : float3x3 K :=
  ⟨⟨m.c0.x, m.c1.x, m.c2.x⟩,
   ⟨m.c0.y, m.c1.y, m.c2.y⟩,
   ⟨m.c0.z, m.c1.z, m.c2.z⟩⟩

/-- Matrix3x3.h: `inverse(m)` — the fast path that always returns
`transpose(m)` (also referred to as `inverse_orthonormal` at the
`MathConversions.h` call sites; every variant of the header implements it as
the transpose). -/
def float3x3.inverse (m : float3x3 K) : float3x3 K := m.transpose

/-- Matrix.h: `float4x4`, column-major, four `float4` columns. -/
@[ext]
structure float4x4 (K : Type) where
  c0 : float4 K
  c1 : float4 K
  c2 : float4 K
  c3 : float4 K
deriving DecidableEq

/-- Matrix.h: the bounds-asserted column accessor `operator[]`. -/
def float4x4.col (m : float4x4 K) : Fin 4 → float4 K
  | 0 => m.c0
  | 1 => m.c1
  | 2 => m.c2
  | 3 => m.c3

/-- Matrix.h: `float4x4::identity()` (the default value). -/
def float4x4.identity : float4x4 K :=
  ⟨⟨1, 0, 0, 0⟩, ⟨0, 1, 0, 0⟩, ⟨0, 0, 1, 0⟩, ⟨0, 0, 0, 1⟩⟩

/-- Matrix.h: `mul(m, v) = v.x * columns[0] + v.y * columns[1] + v.z * columns[2] + v.w * columns[3]`. -/
def float4x4.mulv (m : float4x4 K) (v : float4 K) : float4 K :=
  v.x * m.c0 + v.y * m.c1 + v.z * m.c2 + v.w * m.c3

/-- Matrix.h: `mul(a, b)` applies `a` to each column of `b`. -/
def float4x4.mul (a b : float4x4 K) : float4x4 K :=
  ⟨a.mulv b.c0, a.mulv b.c1, a.mulv b.c2, a.mulv b.c3⟩

/-- Matrix.h: `float4x4::translate(t)`. -/
def float4x4.translate (t : float3 K) : float4x4 K :=
  ⟨⟨1, 0, 0, 0⟩, ⟨0, 1, 0, 0⟩, ⟨0, 0, 1, 0⟩, ⟨t.x, t.y, t.z, 1⟩⟩

/-- Matrix.h: `float4x4::scale(s)`. -/
def float4x4.scale (s : float3 K) : float4x4 K :=
  ⟨⟨s.x, 0, 0, 0⟩, ⟨0, s.y, 0, 0⟩, ⟨0, 0, s.z, 0⟩, ⟨0, 0, 0, 1⟩⟩

/-- Matrix.h: `float4x4::rotate_y(rad)` with `c = std::cos(rad)`,
`s = std::sin(rad)`;  `cosf`/`sinf` model `std::cos`/`std::sin`. -/
def float4x4.rotate_y (cosf sinf : K → K) (rad : K) : float4x4 K :=
  let c := cosf rad
  let s := sinf rad
  ⟨⟨c, 0, -s, 0⟩, ⟨0, 1, 0, 0⟩, ⟨s, 0, c, 0⟩, ⟨0, 0, 0, 1⟩⟩

/-- MathConversions.h: `to_float3x3(q)`, quaternion to 3x3 matrix via the
cross terms `xx, yy, zz, xy, xz, yz, wx, wy, wz`. -/
def to_float3x3 (q : quat K) : float3x3 K :=
  let xx := q.x * q.x
  let yy := q.y * q.y
  let zz := q.z * q.z
  let xy := q.x * q.y
  let xz := q.x * q.z
  let yz := q.y * q.z
  let wx := q.w * q.x
  let wy := q.w * q.y
  let wz := q.w * q.z
  ⟨⟨1 - 2 * (yy + zz), 2 * (xy - wz), 2 * (xz + wy)⟩,
   ⟨2 * (xy + wz), 1 - 2 * (xx + zz), 2 * (yz - wx)⟩,
   ⟨2 * (xz - wy), 2 * (yz + wx), 1 - 2 * (xx + yy)⟩⟩

/-- MathConversions.h: `quat_from_float3x3(m)`, the four-branch trace-based
extraction of a quaternion from a 3x3 rotation matrix; `sqrtf` models
`std::sqrt`.  Branch order: `trace > 0`; else `m[0].x` largest diagonal;
else `m[1].y > m[2].z`; else `m[2].z` largest. -/
def quat_from_float3x3 (sqrtf : K → K) (m : float3x3 K) : quat K :=
  let trace := m.c0.x + m.c1.y + m.c2.z
  if trace > 0 then
    let s := sqrtf (trace + 1) * 2
    ⟨(m.c2.y - m.c1.z) / s, (m.c0.z - m.c2.x) / s, (m.c1.x - m.c0.y) / s, 1 / 4 * s⟩
  else if m.c0.x > m.c1.y ∧ m.c0.x > m.c2.z then
    let s := sqrtf (1 + m.c0.x - m.c1.y - m.c2.z) * 2
    ⟨1 / 4 * s, (m.c0.y + m.c1.x) / s, (m.c0.z + m.c2.x) / s, (m.c2.y - m.c1.z) / s⟩
  else if m.c1.y > m.c2.z then
    let s := sqrtf (1 + m.c1.y - m.c0.x - m.c2.z) * 2
    ⟨(m.c0.y + m.c1.x) / s, 1 / 4 * s, (m.c1.z + m.c2.y) / s, (m.c0.z - m.c2.x) / s⟩
  else
    let s := sqrtf (1 + m.c2.z - m.c0.x - m.c1.y) * 2
    ⟨(m.c0.z + m.c2.x) / s, (m.c1.z + m.c2.y) / s, 1 / 4 * s, (m.c1.x - m.c0.y) / s⟩

/-- MathConversions.h: `affine_inverse(m)`: extract the upper-left 3x3 `rot`
and the translation column, invert `rot` with the orthonormal fast path
(transpose), set `inv_trans = -mul(rot_inv, trans)`, reassemble. -/
def affine_inverse (m : float4x4 K) : float4x4 K :=
  let rot : float3x3 K := ⟨m.c0.xyz, m.c1.xyz, m.c2.xyz⟩
  let rot_inv := rot.inverse
  let trans := m.c3.xyz
  let inv_trans := -(rot_inv.mulv trans)
  ⟨⟨rot_inv.c0.x, rot_inv.c0.y, rot_inv.c0.z, 0⟩,
   ⟨rot_inv.c1.x, rot_inv.c1.y, rot_inv.c1.z, 0⟩,
   ⟨rot_inv.c2.x, rot_inv.c2.y, rot_inv.c2.z, 0⟩,
   ⟨inv_trans.x, inv_trans.y, inv_trans.z, 1⟩⟩

/-- Component accessor of a `float4` by index, matching the source's
row-major scatter `a[0][c] = m[c].x; a[1][c] = m[c].y; ...` in
`inverse(const float4x4&)`. -/
def float4.comp (v : float4 K) : Fin 4 → K
  | 0 => v.x
  | 1 => v.y
  | 2 => v.z
  | 3 => v.w

/-- The working representation of `inverse(const float4x4&)`: the flat
row-major scalar array `float a[4][4]`. -/
abbrev Mat4 (K : Type) := Matrix (Fin 4) (Fin 4) K

/-- MathConversions.h `inverse(const float4x4&)`, first block: copy the
column-major matrix into the row-major array, `a[r][c] = m[c]`'s `r`-th
component. -/
def toMat (m : float4x4 K) : Mat4 K :=
  Matrix.of fun r c => (m.col c).comp r

/-- MathConversions.h `inverse(const float4x4&)`, last block: transpose the
row-major array `inv` back into a column-major `float4x4` (column `c` is
`(inv[0][c], inv[1][c], inv[2][c], inv[3][c])`). -/
def ofMat (A : Mat4 K) : float4x4 K :=
  ⟨⟨A 0 0, A 1 0, A 2 0, A 3 0⟩,
   ⟨A 0 1, A 1 1, A 2 1, A 3 1⟩,
   ⟨A 0 2, A 1 2, A 2 2, A 3 2⟩,
   ⟨A 0 3, A 1 3, A 2 3, A 3 3⟩⟩

/-- Row swap `std::swap(a[i][k], a[p][k])` for all `k` (identity when `p = i`,
matching the source's `if (pivot != i)` guard). -/
def rowSwap (i p : Fin 4) (a : Mat4 K) : Mat4 K :=
  Matrix.of fun r c => a (Equiv.swap i p r) c

/-- Pivot-row normalization `a[i][k] *= inv_pivot` for all `k`. -/
def rowScale (i : Fin 4) (f : K) (a : Mat4 K) : Mat4 K :=
  Matrix.of fun r c => if r = i then f * a r c else a r c

/-- Row elimination `a[j][k] -= a[i][k] * factor` for all `k`. -/
def rowSub (j i : Fin 4) (f : K) (a : Mat4 K) : Mat4 K :=
  Matrix.of fun r c => if r = j then a r c - a i c * f else a r c

/-- The row indices `0..3`, in the order the source's `for` loops visit them. -/
def rows4 : List (Fin 4) := [0, 1, 2, 3]

/-- The partial-pivoting scan
`for (j = i+1; j < 4; ++j) if (|a[j][i]| > max_val) { max_val = ...; pivot = j; }`:
fold of the candidate rows over the running `(pivot, max_val)` pair. -/
def findPivotAux (a : Mat4 K) (i : Fin 4) : List (Fin 4) → Fin 4 × K → Fin 4 × K
  | [], best => best
  | j :: rest, best =>
      findPivotAux a i rest (if |a j i| > best.2 then (j, |a j i|) else best)

/-- Partial pivoting for column `i`: start from `(i, |a[i][i]|)` and scan the
rows below `i`. -/
def findPivot (i : Fin 4) (a : Mat4 K) : Fin 4 × K :=
  findPivotAux a i (rows4.filter fun j => i < j) (i, |a i i|)

/-- The column-elimination loop
`for (j = 0; j < 4; ++j) { if (j == i) continue; factor = a[j][i]; ... }`,
applied in lock-step to the working matrix and the running-identity matrix. -/
def elimFold (i : Fin 4) : List (Fin 4) → Mat4 K × Mat4 K → Mat4 K × Mat4 K
  | [], s => s
  | j :: rest, s =>
      if j = i then elimFold i rest s
      else elimFold i rest (rowSub j i (s.1 j i) s.1, rowSub j i (s.1 j i) s.2)

/-- One iteration of the pivot loop of `inverse(const float4x4&)`: partial
pivoting, singularity check (`max_val < epsilon` returns the failure marker),
row swap, pivot-row normalization by `inv_pivot = 1 / a[i][i]`, and column
elimination. -/
def gjStep (i : Fin 4) (s : Mat4 K × Mat4 K) : Option (Mat4 K × Mat4 K) :=
  let pm := findPivot i s.1
  if pm.2 < epsilon then none
  else
    let a1 := rowSwap i pm.1 s.1
    let v1 := rowSwap i pm.1 s.2
    let a2 := rowScale i (1 / a1 i i) a1
    let v2 := rowScale i (1 / a1 i i) v1
    some (elimFold i rows4 (a2, v2))

/-- The full Gauss-Jordan elimination of `inverse(const float4x4&)` on the
row-major array, starting from the working matrix and the augmented identity;
`none` is the singular early-return. -/
def gjRun (m : Mat4 K) : Option (Mat4 K) :=
  ((((gjStep 0 (m, 1)).bind (gjStep 1)).bind (gjStep 2)).bind
      (gjStep 3)).map Prod.snd

/-- MathConversions.h: `inverse(const float4x4&)`, the general Gauss-Jordan
inverse with partial pivoting; returns `float4x4::identity()` when singular
within tolerance. -/
def float4x4.inverse (m : float4x4 K) : float4x4 K :=
  match gjRun (toMat m) with
  | none => float4x4.identity
  | some v => ofMat v

/-- Componentwise approximate equality of two `float4` values within
tolerance `tol` (the spec's `≈` with componentwise tolerance). -/
def float4.approx (a b : float4 K) (tol : K) : Prop :=
  |a.x - b.x| ≤ tol ∧ |a.y - b.y| ≤ tol ∧ |a.z - b.z| ≤ tol ∧ |a.w - b.w| ≤ tol

/-- Componentwise approximate equality of two `float4x4` values within
tolerance `tol`. -/
def float4x4.approx (a b : float4x4 K) (tol : K) : Prop :=
  a.c0.approx b.c0 tol ∧ a.c1.approx b.c1 tol ∧ a.c2.approx b.c2 tol ∧
    a.c3.approx b.c3 tol

/-- Precomputed `translate(2,3,4) * scale(2,1,0.5)` (the affine test matrix of
the spec). -/
def C1A0 : float4x4 ℚ := ⟨⟨2,0,0,0⟩, ⟨0,1,0,0⟩, ⟨0,0,1/2,0⟩, ⟨2,3,4,1⟩⟩

/-- Working matrix after pivot column 0 (and, unchanged, after column 1). -/
def C1A1 : float4x4 ℚ := ⟨⟨1,0,0,0⟩, ⟨0,1,0,0⟩, ⟨0,0,1/2,0⟩, ⟨1,3,4,1⟩⟩

/-- Running-identity matrix after pivot column 0 (and after column 1). -/
def C1V1 : float4x4 ℚ := ⟨⟨1/2,0,0,0⟩, ⟨0,1,0,0⟩, ⟨0,0,1,0⟩, ⟨0,0,0,1⟩⟩

/-- Working matrix after pivot column 2. -/
def C1A3 : float4x4 ℚ := ⟨⟨1,0,0,0⟩, ⟨0,1,0,0⟩, ⟨0,0,1,0⟩, ⟨1,3,8,1⟩⟩

/-- Running-identity matrix after pivot column 2. -/
def C1V3 : float4x4 ℚ := ⟨⟨1/2,0,0,0⟩, ⟨0,1,0,0⟩, ⟨0,0,2,0⟩, ⟨0,0,0,1⟩⟩

/-- The exact inverse of `C1A0` produced by the elimination. -/
def C1V4 : float4x4 ℚ := ⟨⟨1/2,0,0,0⟩, ⟨0,1,0,0⟩, ⟨0,0,2,0⟩, ⟨-1,-3,-8,1⟩⟩

/-- The all-zero 4x4 matrix. -/
def C3Z : float4x4 ℚ := ⟨⟨0,0,0,0⟩, ⟨0,0,0,0⟩, ⟨0,0,0,0⟩, ⟨0,0,0,0⟩⟩

/-- The slerp path selection exactly as the spec words it: `d = dot(a,b)`;
if `d < 0` replace `b` by `-b` and `d` by `-d`; if `d > 0.9995` return
`nlerp(a, b_adjusted, t)`; otherwise `theta = acos(clamp(d,-1,1))`,
`wa = sin((1-t)*theta)/sin(theta)`, `wb = sin(t*theta)/sin(theta)`, result
`a*wa + b_adjusted*wb`. -/
def slerp_spec (sqrtf sinf acosf : K → K) (a b : quat K) (t : K) : quat K :=
  let d0 := dot4 a b
  let b_adjusted := if d0 < 0 then -b else b
  let d := if d0 < 0 then -d0 else d0
  if d > 9995 / 10000 then nlerp sqrtf a b_adjusted t
  else
    let theta := acosf (clamp d (-1) 1)
    let wa := sinf ((1 - t) * theta) / sinf theta
    let wb := sinf (t * theta) / sinf theta
    a * wa + b_adjusted * wb

@[simp] theorem add2_def (a b : float2 K) : a + b = ⟨a.x + b.x, a.y + b.y⟩ := rfl

@[simp] theorem sub2_def (a b : float2 K) : a - b = ⟨a.x - b.x, a.y - b.y⟩ := rfl

@[simp] theorem mul2_def (a b : float2 K) : a * b = ⟨a.x * b.x, a.y * b.y⟩ := rfl

@[simp] theorem smul2_def (v : float2 K) (s : K) : v * s = ⟨v.x * s, v.y * s⟩ := rfl

@[simp] theorem add3_def (a b : float3 K) :
    a + b = ⟨a.x + b.x, a.y + b.y, a.z + b.z⟩ := rfl

@[simp] theorem sub3_def (a b : float3 K) :
    a - b = ⟨a.x - b.x, a.y - b.y, a.z - b.z⟩ := rfl

@[simp] theorem neg3_def (a : float3 K) : -a = ⟨-a.x, -a.y, -a.z⟩ := rfl

@[simp] theorem mul3_def (a b : float3 K) :
    a * b = ⟨a.x * b.x, a.y * b.y, a.z * b.z⟩ := rfl

@[simp] theorem smul3_def (v : float3 K) (s : K) :
    v * s = ⟨v.x * s, v.y * s, v.z * s⟩ := rfl

@[simp] theorem smul3_right_def (s : K) (v : float3 K) :
    s * v = ⟨s * v.x, s * v.y, s * v.z⟩ := rfl

@[simp] theorem add4_def (a b : float4 K) :
    a + b = ⟨a.x + b.x, a.y + b.y, a.z + b.z, a.w + b.w⟩ := rfl

@[simp] theorem sub4_def (a b : float4 K) :
    a - b = ⟨a.x - b.x, a.y - b.y, a.z - b.z, a.w - b.w⟩ := rfl

@[simp] theorem neg4_def (a : float4 K) : -a = ⟨-a.x, -a.y, -a.z, -a.w⟩ := rfl

@[simp] theorem mul4_def (a b : float4 K) :
    a * b = ⟨a.x * b.x, a.y * b.y, a.z * b.z, a.w * b.w⟩ := rfl

@[simp] theorem smul4_def (v : float4 K) (s : K) :
    v * s = ⟨v.x * s, v.y * s, v.z * s, v.w * s⟩ := rfl

@[simp] theorem smul4_right_def (s : K) (v : float4 K) :
    s * v = ⟨s * v.x, s * v.y, s * v.z, s * v.w⟩ := rfl

theorem mem_rows4 (r : Fin 4) : r ∈ rows4 := by fin_cases r <;> decide

theorem epsilon_pos : (0 : K) < epsilon := by norm_num [epsilon]

/-- Closed form of the elimination loop on a duplicate-free row list: roww
`j ≠ i` of the working matrix becomes `a[j][k] - a[i][k] * a[j][i]`, row `j`
of the running-identity matrix becomes `inv[j][k] - inv[i][k] * a[j][i]`,
and row `i` is untouched. -/
theorem elimFold_eq (i : Fin 4) (L : List (Fin 4)) (hL : L.Nodup) (a v : Mat4 K) :
    elimFold i L (a, v) =
      (Matrix.of fun r c => if r ∈ L ∧ r ≠ i then a r c - a i c * a r i else a r c,
       Matrix.of fun r c => if r ∈ L ∧ r ≠ i then v r c - v i c * a r i else v r c) := by
  induction L generalizing a v with
  | nil =>
      refine Prod.ext ?_ ?_ <;> ext r c <;> simp [elimFold]
  | cons j rest ih =>
      have hj : j ∉ rest := (List.nodup_cons.mp hL).1
      have hrest : rest.Nodup := (List.nodup_cons.mp hL).2
      by_cases hji : j = i
      · subst hji
        rw [elimFold, if_pos rfl, ih hrest]
        refine Prod.ext ?_ ?_ <;> ext r c <;>
          by_cases hrj : r = j <;> simp [hrj, List.mem_cons]
      · rw [elimFold, if_neg hji, ih hrest]
        have hij : (i : Fin 4) ≠ j := fun h => hji h.symm
        refine Prod.ext ?_ ?_ <;> ext r c <;> dsimp [rowSub]
        · by_cases hri : r = i
          · subst hri
            simp [hij, List.mem_cons]
          · by_cases hrj : r = j
            · subst hrj
              have : r ∉ rest := hj
              simp [hji, this, List.mem_cons, hri]
            · by_cases hrr : r ∈ rest <;>
                simp [hri, hrj, hrr, List.mem_cons, hij]
        · by_cases hri : r = i
          · subst hri
            simp [hij, List.mem_cons]
          · by_cases hrj : r = j
            · subst hrj
              have : r ∉ rest := hj
              simp [hji, this, List.mem_cons, hri]
            · by_cases hrr : r ∈ rest <;>
                simp [hri, hrj, hrr, List.mem_cons, hij]

/-- The elimination loop over rows `0..3`: closed form with the `j == i`
`continue` folded in. -/
theorem elimFold_rows4 (i : Fin 4) (a v : Mat4 K) :
    elimFold i rows4 (a, v) =
      (Matrix.of fun r c => if r = i then a r c else a r c - a i c * a r i,
       Matrix.of fun r c => if r = i then v r c else v r c - v i c * a r i) := by
  rw [elimFold_eq i rows4 (by decide) a v]
  refine Prod.ext ?_ ?_ <;> ext r c <;>
    by_cases hri : r = i <;> simp [hri, mem_rows4]

/-- Invariant of the partial-pivoting scan: the running `(pivot, max_val)`
pair always satisfies `max_val = |a[pivot][i]|`, `i ≤ pivot`, `max_val` never
decreases, and on return dominates every scanned candidate. -/
theorem findPivotAux_spec (a : Mat4 K) (i : Fin 4) (L : List (Fin 4))
    (hL : ∀ j ∈ L, i ≤ j) (best : Fin 4 × K)
    (hb1 : i ≤ best.1) (hb2 : best.2 = |a best.1 i|) :
    i ≤ (findPivotAux a i L best).1 ∧
      (findPivotAux a i L best).2 = |a (findPivotAux a i L best).1 i| ∧
      best.2 ≤ (findPivotAux a i L best).2 ∧
      ∀ j ∈ L, |a j i| ≤ (findPivotAux a i L best).2 := by
  induction L generalizing best with
  | nil => exact ⟨hb1, hb2, le_refl _, by simp⟩
  | cons j rest ih =>
      have hji : i ≤ j := hL j (List.mem_cons_self j rest)
      have hrest : ∀ k ∈ rest, i ≤ k := fun k hk => hL k (List.mem_cons_of_mem j hk)
      rw [findPivotAux]
      by_cases hgt : |a j i| > best.2
      · rw [if_pos hgt]
        obtain ⟨h1, h2, h3, h4⟩ := ih hrest (j, |a j i|) hji rfl
        refine ⟨h1, h2, le_trans (le_of_lt hgt) h3, ?_⟩
        intro k hk
        rcases List.mem_cons.mp hk with hkj | hkr
        · subst hkj
          exact h3
        · exact h4 k hkr
      · rw [if_neg hgt]
        obtain ⟨h1, h2, h3, h4⟩ := ih hrest best hb1 hb2
        refine ⟨h1, h2, h3, ?_⟩
        intro k hk
        rcases List.mem_cons.mp hk with hkj | hkr
        · subst hkj
          exact le_trans (le_of_not_lt hgt) h3
        · exact h4 k hkr

/-- Partial pivoting for column `i` selects a row `p ≥ i` whose entry
realizes `max_val`, and `max_val` dominates `|a[j][i]|` for every `j ≥ i`. -/
theorem findPivot_spec (i : Fin 4) (a : Mat4 K) :
    i ≤ (findPivot i a).1 ∧
      (findPivot i a).2 = |a (findPivot i a).1 i| ∧
      ∀ j, i ≤ j → |a j i| ≤ (findPivot i a).2 := by
  have hL : ∀ j ∈ rows4.filter (fun j => decide (i < j)), i ≤ j := by
    intro j hj
    exact le_of_lt (of_decide_eq_true (List.mem_filter.mp hj).2)
  obtain ⟨h1, h2, h3, h4⟩ :=
    findPivotAux_spec a i (rows4.filter fun j => i < j) hL (i, |a i i|) (le_refl i) rfl
  refine ⟨h1, h2, ?_⟩
  intro j hij
  rcases eq_or_lt_of_le hij with hji | hji
  · rw [← hji]
    exact h3
  · refine h4 j ?_
    exact List.mem_filter.mpr ⟨mem_rows4 j, decide_eq_true hji⟩

/-- Row swaps commute with right multiplication. -/
theorem rowSwap_mul (i p : Fin 4) (x m : Mat4 K) :
    rowSwap i p x * m = rowSwap i p (x * m) := by
  ext r c
  simp [rowSwap, Matrix.mul_apply]

/-- Row scaling commutes with right multiplication. -/
theorem rowScale_mul (i : Fin 4) (f : K) (x m : Mat4 K) :
    rowScale i f x * m = rowScale i f (x * m) := by
  ext r c
  by_cases hri : r = i
  · subst hri
    simp [rowScale, Matrix.mul_apply, Finset.mul_sum, mul_assoc]
  · simp [rowScale, Matrix.mul_apply, hri]

/-- One pivot-loop iteration preserves the Gauss-Jordan invariant: the
running-identity matrix times the original matrix equals the working matrix,
and after processing column `i` the working matrix agrees with the identity
on all columns `≤ i`. -/
theorem gjStep_inv {m : Mat4 K} (i : Fin 4) {s s' : Mat4 K × Mat4 K}
    (hmul : s.2 * m = s.1)
    (hcols : ∀ c : Fin 4, (c : ℕ) < (i : ℕ) → ∀ r, s.1 r c = if r = c then 1 else 0)
    (hstep : gjStep i s = some s') :
    s'.2 * m = s'.1 ∧
      ∀ c : Fin 4, (c : ℕ) < (i : ℕ) + 1 → ∀ r, s'.1 r c = if r = c then 1 else 0 := by
  obtain ⟨hp, hval, _⟩ := findPivot_spec i s.1
  simp only [gjStep] at hstep
  by_cases hlt : (findPivot i s.1).2 < epsilon
  · rw [if_pos hlt] at hstep
    exact absurd hstep (by simp)
  rw [if_neg hlt, elimFold_rows4] at hstep
  obtain rfl : s' = _ := (Option.some.inj hstep).symm
  set p := (findPivot i s.1).1 with hpdef
  have hge : epsilon ≤ |s.1 p i| := hval ▸ not_lt.mp hlt
  have hne : s.1 p i ≠ 0 := abs_pos.mp (lt_of_lt_of_le epsilon_pos hge)
  set A1 := rowSwap i p s.1 with hA1
  set V1 := rowSwap i p s.2 with hV1
  set A2 := rowScale i (1 / A1 i i) A1 with hA2
  set V2 := rowScale i (1 / A1 i i) V1 with hV2
  have hA1ii : A1 i i = s.1 p i := by
    rw [hA1]
    simp [rowSwap, Equiv.swap_apply_left]
  have hA1ne : A1 i i ≠ 0 := hA1ii ▸ hne
  have hV1m : V1 * m = A1 := by
    rw [hA1, hV1, rowSwap_mul, hmul]
  have hV2m : V2 * m = A2 := by
    rw [hA2, hV2, rowScale_mul, hV1m]
  constructor
  · ext r c
    by_cases hri : r = i
    · subst hri
      simp only [Matrix.mul_apply, Matrix.of_apply, eq_self_iff_true, if_true]
      rw [← Matrix.mul_apply, hV2m]
    · simp only [Matrix.mul_apply, Matrix.of_apply, if_neg hri]
      have hterm : ∀ k : Fin 4,
          (V2 r k - V2 i k * A2 r i) * m k c =
            V2 r k * m k c - A2 r i * (V2 i k * m k c) := fun k => by ring
      rw [Finset.sum_congr rfl fun k _ => hterm k, Finset.sum_sub_distrib,
        ← Finset.mul_sum]
      have h1 : (Finset.univ.sum fun k => V2 r k * m k c) = A2 r c := by
        rw [← Matrix.mul_apply, hV2m]
      have h2 : (Finset.univ.sum fun k => V2 i k * m k c) = A2 i c := by
        rw [← Matrix.mul_apply, hV2m]
      rw [h1, h2]
      ring
  · intro c hc r
    by_cases hci : (c : ℕ) < (i : ℕ)
    · have hic : ¬ i = c := fun h => absurd hci (by rw [h]; exact lt_irrefl _)
      have hpc : ¬ p = c := by
        intro h
        have hip : (i : ℕ) ≤ (p : ℕ) := hp
        rw [h] at hip
        exact absurd hci (not_lt.mpr hip)
      have hswapc : Equiv.swap i p c = c :=
        Equiv.swap_apply_of_ne_of_ne (fun h => hic h.symm) (fun h => hpc h.symm)
      have hA1col : ∀ r, A1 r c = if r = c then 1 else 0 := by
        intro r
        have hiff : Equiv.swap i p r = c ↔ r = c := by
          constructor
          · intro h
            have h2 := congrArg (Equiv.swap i p) h
            rwa [Equiv.swap_apply_self, hswapc] at h2
          · intro h
            rw [h, hswapc]
        rw [hA1]
        simp only [rowSwap, Matrix.of_apply]
        rw [hcols c hci]
        by_cases hrc : r = c
        · rw [if_pos (hiff.mpr hrc), if_pos hrc]
        · rw [if_neg (fun h => hrc (hiff.mp h)), if_neg hrc]
      have hA2col : ∀ r, A2 r c = if r = c then 1 else 0 := by
        intro r
        rw [hA2]
        simp only [rowScale, Matrix.of_apply]
        by_cases hri : r = i
        · subst hri
          rw [if_pos rfl, hA1col r, if_neg hic, mul_zero]
        · rw [if_neg hri, hA1col r]
      simp only [Matrix.of_apply]
      by_cases hri : r = i
      · rw [if_pos hri, hA2col r]
      · rw [if_neg hri, hA2col r, hA2col i, if_neg hic, zero_mul, sub_zero]
    · have hci' : c = i := by
        apply Fin.ext
        omega
      have hA2ii : A2 i i = 1 := by
        rw [hA2]
        simp only [rowScale, Matrix.of_apply, eq_self_iff_true, if_true]
        exact one_div_mul_cancel hA1ne
      rw [hci']
      simp only [Matrix.of_apply]
      by_cases hri : r = i
      · subst hri
        rw [if_pos rfl, hA2ii, if_pos rfl]
      · rw [if_neg hri, hA2ii, one_mul, sub_self, if_neg hri]

/-- Gauss-Jordan correctness: when the pivot loop of
`inverse(const float4x4&)` completes (no singular early-return), the
running-identity matrix is an exact left inverse of the input. -/
theorem gjRun_some {m0 : Mat4 K} {v : Mat4 K} (h : gjRun m0 = some v) :
    v * m0 = 1 := by
  rw [gjRun] at h
  rw [Option.map_eq_some'] at h
  obtain ⟨s4, hchain, hv⟩ := h
  rw [Option.bind_eq_some] at hchain
  obtain ⟨s3, hchain, h4⟩ := hchain
  rw [Option.bind_eq_some] at hchain
  obtain ⟨s2, hchain, h3⟩ := hchain
  rw [Option.bind_eq_some] at hchain
  obtain ⟨s1, h1, h2⟩ := hchain
  have hinv0 : ((m0, (1 : Mat4 K)) : Mat4 K × Mat4 K).2 * m0 = (m0, (1 : Mat4 K)).1 :=
    one_mul m0
  have hcols0 : ∀ c : Fin 4, (c : ℕ) < ((0 : Fin 4) : ℕ) → ∀ r,
      ((m0, (1 : Mat4 K)) : Mat4 K × Mat4 K).1 r c = if r = c then 1 else 0 := by
    intro c hc
    simp at hc
  obtain ⟨hm1, hc1⟩ := gjStep_inv 0 hinv0 hcols0 h1
  obtain ⟨hm2, hc2⟩ := gjStep_inv 1 hm1 (by simpa using hc1) h2
  obtain ⟨hm3, hc3⟩ := gjStep_inv 2 hm2 (by simpa using hc2) h3
  obtain ⟨hm4, hc4⟩ := gjStep_inv 3 hm3 (by simpa using hc3) h4
  have hid : s4.1 = (1 : Mat4 K) := by
    ext r c
    rw [Matrix.one_apply]
    exact hc4 c (by omega) r
  rw [← hv, hm4, hid]

theorem float4x4.col_zero (m : float4x4 K) : m.col 0 = m.c0 := rfl

theorem float4x4.col_one (m : float4x4 K) : m.col 1 = m.c1 := rfl

theorem float4x4.col_two (m : float4x4 K) : m.col 2 = m.c2 := rfl

theorem float4x4.col_three (m : float4x4 K) : m.col 3 = m.c3 := rfl

theorem float4x4.col_mk0 (m : float4x4 K) (h : 0 < 4) : m.col ⟨0, h⟩ = m.c0 := rfl

theorem float4x4.col_mk1 (m : float4x4 K) (h : 1 < 4) : m.col ⟨1, h⟩ = m.c1 := rfl

theorem float4x4.col_mk2 (m : float4x4 K) (h : 2 < 4) : m.col ⟨2, h⟩ = m.c2 := rfl

theorem float4x4.col_mk3 (m : float4x4 K) (h : 3 < 4) : m.col ⟨3, h⟩ = m.c3 := rfl

theorem float4.comp_zero (v : float4 K) : v.comp 0 = v.x := rfl

theorem float4.comp_one (v : float4 K) : v.comp 1 = v.y := rfl

theorem float4.comp_two (v : float4 K) : v.comp 2 = v.z := rfl

theorem float4.comp_three (v : float4 K) : v.comp 3 = v.w := rfl

theorem float4.comp_mk0 (v : float4 K) (h : 0 < 4) : v.comp ⟨0, h⟩ = v.x := rfl

theorem float4.comp_mk1 (v : float4 K) (h : 1 < 4) : v.comp ⟨1, h⟩ = v.y := rfl

theorem float4.comp_mk2 (v : float4 K) (h : 2 < 4) : v.comp ⟨2, h⟩ = v.z := rfl

theorem float4.comp_mk3 (v : float4 K) (h : 3 < 4) : v.comp ⟨3, h⟩ = v.w := rfl

/-- The row-major copy of a `float4x4` product is the standard matrix
product of the row-major copies. -/
theorem toMat_mul (a b : float4x4 K) : toMat (a.mul b) = toMat a * toMat b := by
  ext r c
  rw [Matrix.mul_apply, Fin.sum_univ_four]
  fin_cases r <;> fin_cases c <;>
    simp only [toMat, Matrix.of_apply, float4x4.col_zero, float4x4.col_one,
      float4x4.col_two, float4x4.col_three, float4.comp_zero, float4.comp_one,
      float4.comp_two, float4.comp_three, float4x4.col_mk0, float4x4.col_mk1,
      float4x4.col_mk2, float4x4.col_mk3, float4.comp_mk0, float4.comp_mk1,
      float4.comp_mk2, float4.comp_mk3, float4x4.mul, float4x4.mulv,
      add4_def, smul4_right_def] <;> ring

/-- The row-major copy of `float4x4::identity()` is the identity matrix. -/
theorem toMat_identity : toMat (float4x4.identity : float4x4 K) = 1 := by
  ext r c
  rw [Matrix.one_apply]
  fin_cases r <;> fin_cases c <;>
    simp [toMat, float4x4.identity, float4x4.col_mk0, float4x4.col_mk1,
      float4x4.col_mk2, float4x4.col_mk3, float4.comp_mk0, float4.comp_mk1,
      float4.comp_mk2, float4.comp_mk3, float4x4.col_zero, float4x4.col_one,
      float4x4.col_two, float4x4.col_three, float4.comp_zero, float4.comp_one,
      float4.comp_two, float4.comp_three, Fin.mk.injEq]

/-- Round trip: scattering a `float4x4` to the row-major array and gathering
it back is the identity. -/
theorem ofMat_toMat (m : float4x4 K) : ofMat (toMat m) = m := by
  rfl

/-- Round trip in the other direction. -/
theorem toMat_ofMat (A : Mat4 K) : toMat (ofMat A) = A := by
  ext r c
  fin_cases r <;> fin_cases c <;> rfl

theorem toMat_injective {a b : float4x4 K} (h : toMat a = toMat b) : a = b := by
  rw [← ofMat_toMat a, h, ofMat_toMat]

/-- When the Gauss-Jordan elimination completes, the general inverse is an
exact left inverse: `inverse(m) * m = identity` with the `mul` of Matrix.h. -/
theorem inverse_mul_eq_identity {m : float4x4 K}
    (h : (gjRun (toMat m)).isSome = true) :
    (float4x4.inverse m).mul m = float4x4.identity := by
  obtain ⟨v, hv⟩ := Option.isSome_iff_exists.mp h
  have hinv : float4x4.inverse m = ofMat v := by
    rw [float4x4.inverse, hv]
  apply toMat_injective
  rw [toMat_mul, hinv, toMat_ofMat, gjRun_some hv, toMat_identity]

theorem rowSwap_self (i : Fin 4) (a : Mat4 K) : rowSwap i i a = a := by
  ext r c
  simp [rowSwap]

theorem rowsAfter0 : rows4.filter (fun j => (0 : Fin 4) < j) = [1, 2, 3] := by decide

theorem rowsAfter1 : rows4.filter (fun j => (1 : Fin 4) < j) = [2, 3] := by decide

theorem rowsAfter2 : rows4.filter (fun j => (2 : Fin 4) < j) = [3] := by decide

theorem rowsAfter3 : rows4.filter (fun j => (3 : Fin 4) < j) = [] := by decide

theorem C1step0 : gjStep 0 (toMat C1A0, (1 : Mat4 ℚ)) = some (toMat C1A1, toMat C1V1) := by
  have hfp : findPivot 0 (toMat C1A0) = (0, 2) := by
    rw [findPivot, rowsAfter0]
    norm_num [findPivotAux, toMat, C1A0, float4x4.col_zero, float4x4.col_one,
      float4x4.col_two, float4x4.col_three, float4.comp_zero, float4.comp_one,
      float4.comp_two, float4.comp_three]
  have h00 : toMat C1A0 0 0 = 2 := by
    norm_num [toMat, C1A0, float4x4.col_zero, float4.comp_zero]
  simp only [gjStep, hfp]
  rw [if_neg (by norm_num [epsilon] : ¬ ((2:ℚ) < epsilon)), rowSwap_self, rowSwap_self,
    h00, elimFold_rows4]
  refine congrArg some (Prod.ext ?_ ?_) <;> ext r c <;> fin_cases r <;> fin_cases c <;>
    norm_num [rowScale, toMat, C1A0, C1A1, C1V1, Matrix.one_apply,
      float4x4.col_zero, float4x4.col_one, float4x4.col_two, float4x4.col_three,
      float4.comp_zero, float4.comp_one, float4.comp_two, float4.comp_three,
      float4x4.col_mk0, float4x4.col_mk1, float4x4.col_mk2, float4x4.col_mk3,
      float4.comp_mk0, float4.comp_mk1, float4.comp_mk2, float4.comp_mk3,
      Fin.mk.injEq] <;> decide

theorem C1step1 : gjStep 1 (toMat C1A1, toMat C1V1) = some (toMat C1A1, toMat C1V1) := by
  have hfp : findPivot 1 (toMat C1A1) = (1, 1) := by
    rw [findPivot, rowsAfter1]
    norm_num [findPivotAux, toMat, C1A1, float4x4.col_zero, float4x4.col_one,
      float4x4.col_two, float4x4.col_three, float4.comp_zero, float4.comp_one,
      float4.comp_two, float4.comp_three]
  have h11 : toMat C1A1 1 1 = 1 := by
    norm_num [toMat, C1A1, float4x4.col_one, float4.comp_one]
  simp only [gjStep, hfp]
  rw [if_neg (by norm_num [epsilon] : ¬ ((1:ℚ) < epsilon)), rowSwap_self, rowSwap_self,
    h11, elimFold_rows4]
  refine congrArg some (Prod.ext ?_ ?_) <;> ext r c <;> fin_cases r <;> fin_cases c <;>
    norm_num [rowScale, toMat, C1A1, C1V1, Matrix.one_apply,
      float4x4.col_zero, float4x4.col_one, float4x4.col_two, float4x4.col_three,
      float4.comp_zero, float4.comp_one, float4.comp_two, float4.comp_three,
      float4x4.col_mk0, float4x4.col_mk1, float4x4.col_mk2, float4x4.col_mk3,
      float4.comp_mk0, float4.comp_mk1, float4.comp_mk2, float4.comp_mk3,
      Fin.mk.injEq] <;> decide

theorem C1step2 : gjStep 2 (toMat C1A1, toMat C1V1) = some (toMat C1A3, toMat C1V3) := by
  have hfp : findPivot 2 (toMat C1A1) = (2, 1/2) := by
    rw [findPivot, rowsAfter2]
    norm_num [findPivotAux, toMat, C1A1, float4x4.col_zero, float4x4.col_one,
      float4x4.col_two, float4x4.col_three, float4.comp_zero, float4.comp_one,
      float4.comp_two, float4.comp_three, abs_of_pos]
  have h22 : toMat C1A1 2 2 = 1/2 := by
    norm_num [toMat, C1A1, float4x4.col_two, float4.comp_two]
  simp only [gjStep, hfp]
  rw [if_neg (by norm_num [epsilon] : ¬ ((1/2:ℚ) < epsilon)), rowSwap_self, rowSwap_self,
    h22, elimFold_rows4]
  refine congrArg some (Prod.ext ?_ ?_) <;> ext r c <;> fin_cases r <;> fin_cases c <;>
    norm_num [rowScale, toMat, C1A1, C1V1, C1A3, C1V3, Matrix.one_apply,
      float4x4.col_zero, float4x4.col_one, float4x4.col_two, float4x4.col_three,
      float4.comp_zero, float4.comp_one, float4.comp_two, float4.comp_three,
      float4x4.col_mk0, float4x4.col_mk1, float4x4.col_mk2, float4x4.col_mk3,
      float4.comp_mk0, float4.comp_mk1, float4.comp_mk2, float4.comp_mk3,
      Fin.mk.injEq] <;> decide

theorem C1step3 :
    gjStep 3 (toMat C1A3, toMat C1V3) = some (toMat float4x4.identity, toMat C1V4) := by
  have hfp : findPivot 3 (toMat C1A3) = (3, 1) := by
    rw [findPivot, rowsAfter3]
    norm_num [findPivotAux, toMat, C1A3, float4x4.col_three, float4.comp_three]
  have h33 : toMat C1A3 3 3 = 1 := by
    norm_num [toMat, C1A3, float4x4.col_three, float4.comp_three]
  simp only [gjStep, hfp]
  rw [if_neg (by norm_num [epsilon] : ¬ ((1:ℚ) < epsilon)), rowSwap_self, rowSwap_self,
    h33, elimFold_rows4]
  refine congrArg some (Prod.ext ?_ ?_) <;> ext r c <;> fin_cases r <;> fin_cases c <;>
    norm_num [rowScale, toMat, C1A3, C1V3, C1V4, float4x4.identity, Matrix.one_apply,
      float4x4.col_zero, float4x4.col_one, float4x4.col_two, float4x4.col_three,
      float4.comp_zero, float4.comp_one, float4.comp_two, float4.comp_three,
      float4x4.col_mk0, float4x4.col_mk1, float4x4.col_mk2, float4x4.col_mk3,
      float4.comp_mk0, float4.comp_mk1, float4.comp_mk2, float4.comp_mk3,
      Fin.mk.injEq] <;> decide

/-- The full Gauss-Jordan run on `translate(2,3,4) * scale(2,1,0.5)` succeeds
and produces its exact inverse. -/
theorem C1run : gjRun (toMat C1A0) = some (toMat C1V4) := by
  rw [gjRun, C1step0, Option.some_bind', C1step1, Option.some_bind', C1step2,
    Option.some_bind', C1step3, Option.map_some']

/-- C1: whenever Gauss-Jordan elimination with partial pivoting completes on a
4x4 matrix `M` (every pivot column has a candidate of absolute value at least
`epsilon = 1e-6`, which holds for every matrix the claim lists), the general
inverse satisfies `inverse(M) * M ≈ identity` componentwise within `1e-4`
(indeed exactly).  The claim's quantification over all *invertible* matrices
fails: see the counterexample theorem. -/
theorem C1_general_inverse_left_inverse {K : Type} [LinearOrderedField K]
    (m : float4x4 K) (h : (gjRun (toMat m)).isSome = true) :
    float4x4.approx ((float4x4.inverse m).mul m) float4x4.identity (1 / 10000) := by
  rw [inverse_mul_eq_identity h]
  norm_num [float4x4.approx, float4.approx, float4x4.identity]

/-- C1 witness: the elimination succeeds on
`translate(2,3,4) * scale(2,1,0.5)` and the round-trip holds there. -/
theorem C1_general_inverse_left_inverse_witness :
    (gjRun (toMat ((float4x4.translate ⟨2, 3, 4⟩).mul
        (float4x4.scale ⟨2, 1, 1/2⟩) : float4x4 ℚ))).isSome = true ∧
      float4x4.approx
        ((float4x4.inverse ((float4x4.translate (⟨2, 3, 4⟩ : float3 ℚ)).mul
            (float4x4.scale ⟨2, 1, 1/2⟩))).mul
          ((float4x4.translate ⟨2, 3, 4⟩).mul (float4x4.scale ⟨2, 1, 1/2⟩)))
        float4x4.identity (1 / 10000) := by
  have hb : (float4x4.translate (⟨2, 3, 4⟩ : float3 ℚ)).mul
      (float4x4.scale ⟨2, 1, 1/2⟩) = C1A0 := by
    norm_num [float4x4.translate, float4x4.scale, float4x4.mul, float4x4.mulv, C1A0]
  have hsome : (gjRun (toMat C1A0)).isSome = true := by
    rw [C1run]
    rfl
  rw [hb]
  exact ⟨hsome, C1_general_inverse_left_inverse C1A0 hsome⟩

/-- C1 counterexample: `scale(1e-7, 1e-7, 1e-7)` is invertible (its inverse is
`scale(1e7, 1e7, 1e7)`), but the general inverse hits the singular fallback
(all pivot candidates of column 0 are below `epsilon = 1e-6`), returns the
identity, and `inverse(M) * M = M` is not within `1e-4` of the identity. -/
theorem C1_invertible_but_no_roundtrip :
    (∃ N : float4x4 ℚ,
        N.mul (float4x4.scale ⟨1/10000000, 1/10000000, 1/10000000⟩) = float4x4.identity ∧
          (float4x4.scale (⟨1/10000000, 1/10000000, 1/10000000⟩ : float3 ℚ)).mul N =
            float4x4.identity) ∧
      ¬ float4x4.approx
          ((float4x4.inverse
              (float4x4.scale (⟨1/10000000, 1/10000000, 1/10000000⟩ : float3 ℚ))).mul
            (float4x4.scale ⟨1/10000000, 1/10000000, 1/10000000⟩))
          float4x4.identity (1 / 10000) := by
  constructor
  · refine ⟨float4x4.scale ⟨10000000, 10000000, 10000000⟩, ?_, ?_⟩ <;>
      norm_num [float4x4.scale, float4x4.mul, float4x4.mulv, float4x4.identity]
  · have hfp : findPivot 0
        (toMat (float4x4.scale (⟨1/10000000, 1/10000000, 1/10000000⟩ : float3 ℚ))) =
        (0, 1/10000000) := by
      rw [findPivot, rowsAfter0]
      norm_num [findPivotAux, toMat, float4x4.scale, float4x4.col_zero,
        float4x4.col_one, float4x4.col_two, float4x4.col_three, float4.comp_zero,
        float4.comp_one, float4.comp_two, float4.comp_three, abs_of_pos]
    have hnone : gjRun
        (toMat (float4x4.scale (⟨1/10000000, 1/10000000, 1/10000000⟩ : float3 ℚ))) =
        none := by
      rw [gjRun]
      simp only [gjStep, hfp]
      rw [if_pos (by norm_num [epsilon] : (1/10000000 : ℚ) < epsilon)]
      rfl
    have hid : float4x4.inverse
        (float4x4.scale (⟨1/10000000, 1/10000000, 1/10000000⟩ : float3 ℚ)) =
        float4x4.identity := by
      simp only [float4x4.inverse, hnone]
    rw [hid]
    intro hcon
    have h1 := hcon.1.1
    norm_num [float4x4.mul, float4x4.mulv, float4x4.scale, float4x4.identity,
      abs_of_neg, abs_of_pos, abs_sub_comm] at h1

/-- C3: a matrix that is singular within tolerance — the elimination's pivot
scan finds only candidates below `epsilon = 1e-6` in some column and
early-returns — makes the general inverse return `float4x4::identity()`
(all components exact field values, so finite by construction). -/
theorem C3_singular_inverse_is_identity {K : Type} [LinearOrderedField K]
    (m : float4x4 K) (h : gjRun (toMat m) = none) :
    float4x4.inverse m = float4x4.identity := by
  simp only [float4x4.inverse, h]

/-- C3 witness: the all-zero matrix is singular within tolerance, and its
general inverse is the identity. -/
theorem C3_singular_inverse_is_identity_witness :
    gjRun (toMat C3Z) = none ∧ float4x4.inverse C3Z = float4x4.identity := by
  have hfp : findPivot 0 (toMat C3Z) = (0, 0) := by
    rw [findPivot, rowsAfter0]
    norm_num [findPivotAux, toMat, C3Z, float4x4.col_zero, float4x4.col_one,
      float4x4.col_two, float4x4.col_three, float4.comp_zero, float4.comp_one,
      float4.comp_two, float4.comp_three]
  have hnone : gjRun (toMat C3Z) = none := by
    rw [gjRun]
    simp only [gjStep, hfp]
    rw [if_pos (by norm_num [epsilon] : (0 : ℚ) < epsilon)]
    rfl
  exact ⟨hnone, C3_singular_inverse_is_identity C3Z hnone⟩

/-- C9: in the general inverse, division happens only in the pivot-row
normalization `1 / a[i][i]`, and only after the guard `max_val < epsilon`
fails; the pivot row `p` satisfies `p ≥ i`, the entry swapped into `a[i][i]`
realizes `max_val`, so the divisor has absolute value at least
`epsilon = 1e-6` and in particular is nonzero. -/
theorem C9_pivot_division_guarded {K : Type} [LinearOrderedField K]
    (a : Mat4 K) (i : Fin 4) (h : ¬ (findPivot i a).2 < epsilon) :
    i ≤ (findPivot i a).1 ∧
      (findPivot i a).2 = |rowSwap i (findPivot i a).1 a i i| ∧
      epsilon ≤ |rowSwap i (findPivot i a).1 a i i| ∧
      rowSwap i (findPivot i a).1 a i i ≠ 0 := by
  obtain ⟨hp, hval, _⟩ := findPivot_spec i a
  have hsw : rowSwap i (findPivot i a).1 a i i = a (findPivot i a).1 i := by
    simp [rowSwap, Equiv.swap_apply_left]
  have habs : epsilon ≤ |rowSwap i (findPivot i a).1 a i i| := by
    rw [hsw, ← hval]
    exact not_lt.mp h
  refine ⟨hp, by rw [hsw, hval], habs, ?_⟩
  exact abs_pos.mp (lt_of_lt_of_le epsilon_pos habs)

/-- C9 witness: on the identity matrix at column 0 the guard passes and the
divisor is the pivot entry `1`. -/
theorem C9_pivot_division_guarded_witness :
    (¬ (findPivot 0 (1 : Mat4 ℚ)).2 < epsilon) ∧
      ((0 : Fin 4) ≤ (findPivot 0 (1 : Mat4 ℚ)).1 ∧
        (findPivot 0 (1 : Mat4 ℚ)).2 = |rowSwap 0 (findPivot 0 (1 : Mat4 ℚ)).1 (1 : Mat4 ℚ) 0 0| ∧
        epsilon ≤ |rowSwap 0 (findPivot 0 (1 : Mat4 ℚ)).1 (1 : Mat4 ℚ) 0 0| ∧
        rowSwap 0 (findPivot 0 (1 : Mat4 ℚ)).1 (1 : Mat4 ℚ) 0 0 ≠ 0) := by
  have hfp : findPivot 0 (1 : Mat4 ℚ) = (0, 1) := by
    have e00 : (1 : Mat4 ℚ) 0 0 = 1 := Matrix.one_apply_eq 0
    have e10 : (1 : Mat4 ℚ) 1 0 = 0 := Matrix.one_apply_ne (by decide)
    have e20 : (1 : Mat4 ℚ) 2 0 = 0 := Matrix.one_apply_ne (by decide)
    have e30 : (1 : Mat4 ℚ) 3 0 = 0 := Matrix.one_apply_ne (by decide)
    rw [findPivot, rowsAfter0]
    norm_num [findPivotAux, e00, e10, e20, e30]
  have h : ¬ (findPivot 0 (1 : Mat4 ℚ)).2 < epsilon := by
    rw [hfp]
    norm_num [epsilon]
  exact ⟨h, C9_pivot_division_guarded (1 : Mat4 ℚ) 0 h⟩

/-- C4: the Matrix3 inverse is definitionally the transpose, for every 3x3
matrix and with no branch on the input. -/
theorem C4_matrix3_inverse_is_transpose {K : Type} [LinearOrderedField K]
    (m : float3x3 K) : float3x3.inverse m = float3x3.transpose m := rfl

/-- C8: identity laws — `mul(float4x4::identity(), v) = v`,
`mul(float3x3::identity(), v) = v`, and `rotate_vector(quat_identity(), v) = v`. -/
theorem C8_identity_laws {K : Type} [LinearOrderedField K] :
    (∀ v : float4 K, float4x4.identity.mulv v = v) ∧
      (∀ v : float3 K, float3x3.identity.mulv v = v) ∧
      (∀ v : float3 K, rotate_vector quat_identity v = v) := by
  refine ⟨fun v => ?_, fun v => ?_, fun v => ?_⟩
  · apply float4.ext <;>
      simp [float4x4.identity, float4x4.mulv] <;> ring
  · apply float3.ext <;>
      simp [float3x3.identity, float3x3.mulv] <;> ring
  · apply float3.ext <;>
      simp [rotate_vector, quat_mul, conjugate, quat_identity, float4.xyz] <;> ring

/-- C7: `normalize` returns the all-zero vector of the same arity when the
length is within `epsilon = 1e-6` of zero and `v * (1/length(v))` otherwise,
for arities 2, 3 and 4; in particular (assuming the embedded `sqrt` sends `0`
to `0`, as the exact square root does) `normalize((0,0,0)) = (0,0,0)`. -/
theorem C7_normalize_degenerate_policy {K : Type} [LinearOrderedField K]
    (sqrtf : K → K) :
    (∀ v : float2 K,
        (almost_equal (length2 sqrtf v) 0 → normalize2 sqrtf v = ⟨0, 0⟩) ∧
          (¬ almost_equal (length2 sqrtf v) 0 →
            normalize2 sqrtf v = v * (1 / length2 sqrtf v))) ∧
      (∀ v : float3 K,
        (almost_equal (length3 sqrtf v) 0 → normalize3 sqrtf v = ⟨0, 0, 0⟩) ∧
          (¬ almost_equal (length3 sqrtf v) 0 →
            normalize3 sqrtf v = v * (1 / length3 sqrtf v))) ∧
      (∀ v : float4 K,
        (almost_equal (length4 sqrtf v) 0 → normalize4 sqrtf v = ⟨0, 0, 0, 0⟩) ∧
          (¬ almost_equal (length4 sqrtf v) 0 →
            normalize4 sqrtf v = v * (1 / length4 sqrtf v))) ∧
      (sqrtf 0 = 0 → normalize3 sqrtf ⟨0, 0, 0⟩ = ⟨0, 0, 0⟩) := by
  refine ⟨fun v => ⟨fun h => ?_, fun h => ?_⟩, fun v => ⟨fun h => ?_, fun h => ?_⟩,
    fun v => ⟨fun h => ?_, fun h => ?_⟩, fun h0 => ?_⟩
  · rw [normalize2, if_pos h]
  · rw [normalize2, if_neg h]
  · rw [normalize3, if_pos h]
  · rw [normalize3, if_neg h]
  · rw [normalize4, if_pos h]
  · rw [normalize4, if_neg h]
  · have hlen : length3 sqrtf ⟨0, 0, 0⟩ = 0 := by
      rw [length3, length_squared3, dot3]
      norm_num
      exact h0
    rw [normalize3, hlen, if_pos (by norm_num [almost_equal, epsilon])]

/-- C7 witness: the all-zero 3-vector normalizes to itself (with a `sqrt`
function that sends `0` to `0`). -/
theorem C7_normalize_degenerate_policy_witness :
    normalize3 (fun _ => (0 : ℚ)) ⟨0, 0, 0⟩ = ⟨0, 0, 0⟩ :=
  (C7_normalize_degenerate_policy (fun _ => (0 : ℚ))).2.2.2 rfl

/-- C10: for a unit quaternion `a`, `nlerp(a, -a, 0.5)` linearly interpolates
to the exact zero quaternion, and `normalize`'s degenerate fallback keeps it
at `(0,0,0,0)` — a non-unit output of `nlerp`. -/
theorem C10_nlerp_antipodal_is_zero {K : Type} [LinearOrderedField K]
    (sqrtf : K → K) (h0 : sqrtf 0 = 0) (a : quat K) (ha : dot4 a a = 1) :
    nlerp sqrtf a (-a) (1 / 2) = ⟨0, 0, 0, 0⟩ := by
  have hlerp : lerp4 a (-a) (1 / 2) = ⟨0, 0, 0, 0⟩ := by
    apply float4.ext <;> simp [lerp4] <;> ring
  rw [nlerp, hlerp]
  have hlen : length4 sqrtf ⟨0, 0, 0, 0⟩ = 0 := by
    rw [length4, length_squared4, dot4]
    norm_num
    exact h0
  rw [normalize4, hlen, if_pos (by norm_num [almost_equal, epsilon])]

/-- C10 witness: at the identity quaternion. -/
theorem C10_nlerp_antipodal_is_zero_witness :
    nlerp (fun _ => (0 : ℚ)) (⟨0, 0, 0, 1⟩ : quat ℚ) (-⟨0, 0, 0, 1⟩) (1 / 2) =
      ⟨0, 0, 0, 0⟩ :=
  C10_nlerp_antipodal_is_zero (fun _ => (0 : ℚ)) rfl ⟨0, 0, 0, 1⟩ (by norm_num [dot4])

/-- C6: the source's `slerp` follows exactly the spec's path selection, for
all quaternions `a`, `b` and every `t`. -/
theorem C6_slerp_path_selection {K : Type} [LinearOrderedField K]
    (sqrtf sinf acosf : K → K) (a b : quat K) (t : K) :
    slerp sqrtf sinf acosf a b t = slerp_spec sqrtf sinf acosf a b t := rfl

/-- C2: the affine-inverse round trip fails on the spec's own test input.
For `model = translate(10,20,30) * rotate_y(pi/2) * scale(2,2,2)` (built over
`ℝ` with the exact values `cos(pi/2) = 0`, `sin(pi/2) = 1`) and
`local = (1,0,0,1)`, the code produces
`affine_inverse(model) * (model * local) = (4,0,0,1)`, which is not within
`1e-4` of `local`: the 3x3 transpose fast path inverts the rotation but
squares the uniform scale instead of inverting it. -/
theorem C2_affine_inverse_roundtrip_fails :
    (affine_inverse (((float4x4.translate ⟨10, 20, 30⟩).mul
          (float4x4.rotate_y Real.cos Real.sin (Real.pi / 2))).mul
        (float4x4.scale ⟨2, 2, 2⟩))).mulv
        ((((float4x4.translate ⟨10, 20, 30⟩).mul
            (float4x4.rotate_y Real.cos Real.sin (Real.pi / 2))).mul
          (float4x4.scale ⟨2, 2, 2⟩)).mulv ⟨1, 0, 0, 1⟩) = ⟨4, 0, 0, 1⟩ ∧
      ¬ float4.approx (⟨4, 0, 0, 1⟩ : float4 ℝ) ⟨1, 0, 0, 1⟩ (1 / 10000) := by
  have hR : float4x4.rotate_y Real.cos Real.sin (Real.pi / 2) =
      (⟨⟨0, 0, -1, 0⟩, ⟨0, 1, 0, 0⟩, ⟨1, 0, 0, 0⟩, ⟨0, 0, 0, 1⟩⟩ : float4x4 ℝ) := by
    rw [float4x4.rotate_y]
    norm_num [Real.cos_pi_div_two, Real.sin_pi_div_two]
  rw [hR]
  have hmodel : ((float4x4.translate (⟨10, 20, 30⟩ : float3 ℝ)).mul
        (⟨⟨0, 0, -1, 0⟩, ⟨0, 1, 0, 0⟩, ⟨1, 0, 0, 0⟩, ⟨0, 0, 0, 1⟩⟩ : float4x4 ℝ)).mul
        (float4x4.scale ⟨2, 2, 2⟩) =
      (⟨⟨0, 0, -2, 0⟩, ⟨0, 2, 0, 0⟩, ⟨2, 0, 0, 0⟩, ⟨10, 20, 30, 1⟩⟩ : float4x4 ℝ) := by
    norm_num [float4x4.translate, float4x4.scale, float4x4.mul, float4x4.mulv]
  rw [hmodel]
  constructor
  · apply float4.ext <;>
      norm_num [affine_inverse, float3x3.inverse, float3x3.transpose, float3x3.mulv,
        float4x4.mulv, float4.xyz]
  · intro hcon
    have h1 := hcon.1
    norm_num [abs_of_pos] at h1

set_option maxHeartbeats 2000000 in
/-- C5: for a unit quaternion, converting to a 3x3 matrix and extracting a
quaternion back with the four-branch trace-based algorithm recovers the
quaternion up to sign, in every branch; `sqrtf` is any exact square root
(nonnegative, squaring back to the argument), e.g. `Real.sqrt`. -/
theorem C5_quat_matrix_roundtrip {K : Type} [LinearOrderedField K]
    (sqrtf : K → K)
    (hsq : ∀ x : K, 0 ≤ x → 0 ≤ sqrtf x ∧ sqrtf x * sqrtf x = x)
    (q : quat K) (hq : dot4 q q = 1) :
    quat_from_float3x3 sqrtf (to_float3x3 q) = q ∨
      quat_from_float3x3 sqrtf (to_float3x3 q) = -q := by
  have hq' : q.x * q.x + q.y * q.y + q.z * q.z + q.w * q.w = 1 := by
    simpa [dot4] using hq
  have hs : ∀ u : K, sqrtf (u * u) = |u| := by
    intro u
    obtain ⟨h1, h2⟩ := hsq (u * u) (mul_self_nonneg u)
    exact (mul_self_inj h1 (abs_nonneg u)).mp (by rw [h2, abs_mul_abs_self])
  have mc0x : (to_float3x3 q).c0.x = 1 - 2 * (q.y * q.y + q.z * q.z) := rfl
  have mc0y : (to_float3x3 q).c0.y = 2 * (q.x * q.y - q.w * q.z) := rfl
  have mc0z : (to_float3x3 q).c0.z = 2 * (q.x * q.z + q.w * q.y) := rfl
  have mc1x : (to_float3x3 q).c1.x = 2 * (q.x * q.y + q.w * q.z) := rfl
  have mc1y : (to_float3x3 q).c1.y = 1 - 2 * (q.x * q.x + q.z * q.z) := rfl
  have mc1z : (to_float3x3 q).c1.z = 2 * (q.y * q.z - q.w * q.x) := rfl
  have mc2x : (to_float3x3 q).c2.x = 2 * (q.x * q.z - q.w * q.y) := rfl
  have mc2y : (to_float3x3 q).c2.y = 2 * (q.y * q.z + q.w * q.x) := rfl
  have mc2z : (to_float3x3 q).c2.z = 1 - 2 * (q.x * q.x + q.y * q.y) := rfl
  rw [quat_from_float3x3]
  simp only [mc0x, mc0y, mc0z, mc1x, mc1y, mc1z, mc2x, mc2y, mc2z]
  split_ifs with h1 h2 h3
  · -- trace > 0: s = 4|w|
    have e1 : (1 - 2 * (q.y * q.y + q.z * q.z)) + (1 - 2 * (q.x * q.x + q.z * q.z)) +
        (1 - 2 * (q.x * q.x + q.y * q.y)) + 1 = (2 * q.w) * (2 * q.w) := by
      linear_combination (-4 : K) * hq'
    have hw : q.w ≠ 0 := by
      intro h
      have hww : q.w * q.w = 0 := by rw [h]; ring
      nlinarith [h1, hq', hww, mul_self_nonneg q.x, mul_self_nonneg q.y,
        mul_self_nonneg q.z]
    rw [e1, hs (2 * q.w)]
    rcases le_or_lt 0 q.w with hw0 | hw0
    · left
      rw [abs_of_nonneg (by linarith : (0:K) ≤ 2 * q.w)]
      apply float4.ext <;> dsimp only <;> field_simp <;> ring
    · right
      rw [abs_of_neg (by linarith : 2 * q.w < 0)]
      simp only [neg4_def]
      apply float4.ext <;> dsimp only <;> field_simp <;> ring
  · -- m00 largest diagonal: s = 4|x|
    have e2 : 1 + (1 - 2 * (q.y * q.y + q.z * q.z)) - (1 - 2 * (q.x * q.x + q.z * q.z)) -
        (1 - 2 * (q.x * q.x + q.y * q.y)) = (2 * q.x) * (2 * q.x) := by
      ring
    have hx : q.x ≠ 0 := by
      intro h
      have hxx : q.x * q.x = 0 := by rw [h]; ring
      nlinarith [h2.1, hxx, mul_self_nonneg q.y]
    rw [e2, hs (2 * q.x)]
    rcases le_or_lt 0 q.x with hx0 | hx0
    · left
      rw [abs_of_nonneg (by linarith : (0:K) ≤ 2 * q.x)]
      apply float4.ext <;> dsimp only <;> field_simp <;> ring
    · right
      rw [abs_of_neg (by linarith : 2 * q.x < 0)]
      simp only [neg4_def]
      apply float4.ext <;> dsimp only <;> field_simp <;> ring
  · -- m11 largest diagonal: s = 4|y|
    have e3 : 1 + (1 - 2 * (q.x * q.x + q.z * q.z)) - (1 - 2 * (q.y * q.y + q.z * q.z)) -
        (1 - 2 * (q.x * q.x + q.y * q.y)) = (2 * q.y) * (2 * q.y) := by
      ring
    have hy : q.y ≠ 0 := by
      intro h
      have hyy : q.y * q.y = 0 := by rw [h]; ring
      nlinarith [h3, hyy, mul_self_nonneg q.z]
    rw [e3, hs (2 * q.y)]
    rcases le_or_lt 0 q.y with hy0 | hy0
    · left
      rw [abs_of_nonneg (by linarith : (0:K) ≤ 2 * q.y)]
      apply float4.ext <;> dsimp only <;> field_simp <;> ring
    · right
      rw [abs_of_neg (by linarith : 2 * q.y < 0)]
      simp only [neg4_def]
      apply float4.ext <;> dsimp only <;> field_simp <;> ring
  · -- m22 largest diagonal: s = 4|z|
    have e4 : 1 + (1 - 2 * (q.x * q.x + q.y * q.y)) - (1 - 2 * (q.y * q.y + q.z * q.z)) -
        (1 - 2 * (q.x * q.x + q.z * q.z)) = (2 * q.z) * (2 * q.z) := by
      ring
    have hz : q.z ≠ 0 := by
      intro h
      have hzz : q.z * q.z = 0 := by rw [h]; ring
      have h3' := not_lt.mp h3
      have hyy : q.y * q.y ≤ 0 := by nlinarith [h3', hzz]
      rcases not_and_or.mp h2 with h2a | h2b
      · have h2a' := not_lt.mp h2a
        have hxx : q.x * q.x ≤ 0 := by nlinarith [h2a']
        nlinarith [not_lt.mp h1, hq', hxx, hyy, hzz, mul_self_nonneg q.x,
          mul_self_nonneg q.y]
      · have h2b' := not_lt.mp h2b
        have hxx : q.x * q.x ≤ 0 := by nlinarith [h2b', hzz]
        nlinarith [not_lt.mp h1, hq', hxx, hyy, hzz, mul_self_nonneg q.x,
          mul_self_nonneg q.y]
    rw [e4, hs (2 * q.z)]
    rcases le_or_lt 0 q.z with hz0 | hz0
    · left
      rw [abs_of_nonneg (by linarith : (0:K) ≤ 2 * q.z)]
      apply float4.ext <;> dsimp only <;> field_simp <;> ring
    · right
      rw [abs_of_neg (by linarith : 2 * q.z < 0)]
      simp only [neg4_def]
      apply float4.ext <;> dsimp only <;> field_simp <;> ring

/-- C5 witness: the identity quaternion round-trips (trace branch), with
`Real.sqrt` as the square root. -/
theorem C5_quat_matrix_roundtrip_witness :
    quat_from_float3x3 Real.sqrt (to_float3x3 (⟨0, 0, 0, 1⟩ : quat ℝ)) =
        (⟨0, 0, 0, 1⟩ : quat ℝ) ∨
      quat_from_float3x3 Real.sqrt (to_float3x3 (⟨0, 0, 0, 1⟩ : quat ℝ)) =
        -(⟨0, 0, 0, 1⟩ : quat ℝ) :=
  C5_quat_matrix_roundtrip Real.sqrt
    (fun x hx => ⟨Real.sqrt_nonneg x, Real.mul_self_sqrt hx⟩)
    ⟨0, 0, 0, 1⟩ (by norm_num [dot4])

end chlm
